import Mathlib

/-!
Shallow embedding of `src/tree.rs` (directory-tree generation) and proofs
about it.

The Rust code builds an in-memory tree from a list of file paths and renders
it as a text diagram.  The embedding below mirrors the source:

* `TreeNode` mirrors `struct TreeNode { name, children: HashMap<String, TreeNode>, is_file }`.
  The `HashMap<String, TreeNode>` is embedded as `ChildMap`, an association
  list kept sorted by key (the standard extensional model of a string-keyed
  map); `ChildMap.find` is `HashMap::get` and `ChildMap.set` is
  `HashMap::insert` / in-place mutation of an entry.
* `clean_path_components` mirrors the Rust function of the same name,
  composed with a model `pathComponents` of Rust's `Path::components()`
  iterator for Unix-style paths.
* `add_components` is the loop body of `add_path_to_tree_with_type`,
  operating on the cleaned component list.
* `render_child` / `render_tree` mirror the two rendering functions; Rust's
  stable `sort_by` is embedded as a stable insertion sort (`sortChildren`)
  over the same comparator, and `generate_tree` mirrors the public entry
  point.
-/

/-! ### Lexicographic comparison of strings via their character lists -/

/-- Strict lexicographic order on character lists (code-point order, which for
UTF-8 strings agrees with Rust's byte order `String::cmp`). -/
def charsLt : List Char → List Char → Bool
  | [], [] => false
  | [], _ :: _ => true
  | _ :: _, [] => false
  | a :: as, b :: bs => if a < b then true else if b < a then false else charsLt as bs

/-- Strict lexicographic order on strings. -/
def strLt (a b : String) : Bool := charsLt a.data b.data

/-! ### The tree data model -/

mutual
/-- Mirror of the Rust `TreeNode`: a name, a map of children and a
file/directory tag. -/
inductive TreeNode where
  | node (name : String) (children : ChildMap) (is_file : Bool)
/-- Embedding of `HashMap<String, TreeNode>` as an association list kept
sorted by key. -/
inductive ChildMap where
  | nil
  | cons (key : String) (child : TreeNode) (rest : ChildMap)
end

def TreeNode.name : TreeNode → String
  | .node n _ _ => n

def TreeNode.children : TreeNode → ChildMap
  | .node _ cs _ => cs

def TreeNode.is_file : TreeNode → Bool
  | .node _ _ f => f

/-- Mirror of `TreeNode::new()`. -/
def TreeNode.new : TreeNode := .node "" .nil false

/-- Mirror of `TreeNode::new_with_name(name, is_file)`. -/
def TreeNode.new_with_name (name : String) (is_file : Bool) : TreeNode :=
  .node name .nil is_file

/-- Mirror of `children.is_empty()`. -/
def ChildMap.isEmpty : ChildMap → Bool
  | .nil => true
  | .cons _ _ _ => false

/-- Mirror of `children.get(name)` / `children.get_mut(name)`. -/
def ChildMap.find : ChildMap → String → Option TreeNode
  | .nil, _ => none
  | .cons k c rest, key => if key = k then some c else rest.find key

/-- Insert-or-replace at a key, keeping the list sorted by key: the
extensional model of `HashMap::insert` and of in-place mutation of the
entry returned by `get_mut` / `entry`. -/
def ChildMap.set : ChildMap → String → TreeNode → ChildMap
  | .nil, key, v => .cons key v .nil
  | .cons k c rest, key, v =>
    if strLt key k then .cons key v (.cons k c rest)
    else if key = k then .cons key v rest
    else .cons k c (rest.set key v)

/-- Read-modify-write of the entry at a key: the shape every mutation in
`add_path_to_tree_with_type` takes. -/
def ChildMap.update (cs : ChildMap) (key : String) (f : Option TreeNode → TreeNode) : ChildMap :=
  cs.set key (f (cs.find key))

/-- Mirror of `children.values()`. -/
def ChildMap.values : ChildMap → List TreeNode
  | .nil => []
  | .cons _ c rest => c :: rest.values

/-- Total number of nodes hanging below a map (used as a termination
measure for the renderer). -/
def ChildMap.size : ChildMap → Nat
  | .nil => 0
  | .cons _ (.node _ gcs _) rest => 1 + ChildMap.size gcs + ChildMap.size rest

/-- Number of nodes of a subtree, the node itself included. -/
def TreeNode.size : TreeNode → Nat
  | .node _ cs _ => 1 + cs.size

/-! ### Path normalization -/

/-- Split a character list at every occurrence of a separator character
(the chunks between path separators). -/
def splitOnChar (sep : Char) : List Char → List (List Char)
  | [] => [[]]
  | c :: rest =>
    match splitOnChar sep rest with
    | [] => [[c]]
    | g :: gs => if c = sep then [] :: g :: gs else (c :: g) :: gs

/-- The component kinds of Rust's `std::path::Component` relevant on Unix
(there is no `Prefix` component on Unix paths). -/
inductive PathComponent where
  | rootDir
  | curDir
  | parentDir
  | normal (s : String)

/-- Classification of one chunk between separators, as done by Rust's
component iterator: empty chunks and non-leading `.` chunks are normalized
away, `..` is a `parentDir`, everything else is a `normal` component. -/
def componentOfChunk (c : String) : Option PathComponent :=
  if c = "" then none
  else if c = "." then none
  else if c = ".." then some .parentDir
  else some (.normal c)

/-- Model of Rust `Path::components()` for Unix-style paths: a leading `/`
yields `rootDir`; a leading `.` chunk of a relative path yields `curDir`;
the remaining chunks are classified by `componentOfChunk`. -/
def pathComponents (s : String) : List PathComponent :=
  let chunks := (splitOnChar '/' s.data).map (fun g => String.mk g)
  let hasRoot := s.data.head? = some '/'
  let leadCur := ¬ hasRoot ∧ chunks.head? = some "."
  (if hasRoot then [PathComponent.rootDir] else [])
    ++ (if leadCur then [PathComponent.curDir] else [])
    ++ chunks.filterMap componentOfChunk

/-- Mirror of `clean_path_components`: drop prefix/root and `.` components,
keep `..` literally, keep normal components verbatim. -/
def clean_path_components (path : String) : List String :=
  (pathComponents path).filterMap (fun c =>
    match c with
    | .rootDir => none
    | .curDir => none
    | .parentDir => some ".."
    | .normal os_str => some os_str)

/-! ### Insertion -/

/-- Mirror of the intermediate-component fixup: `if entry.is_file {
entry.is_file = false }`. -/
def forceDir (t : TreeNode) : TreeNode :=
  if t.is_file then .node t.name t.children false else t

/-- Mirror of the final-component conflict handling in
`add_path_to_tree_with_type` (the `match current.children.get_mut(name)`
block): `none` creates the requested node, `some` patches the existing
node's tag per the conflict rules. -/
def resolveFinal (name : String) (final_is_file : Bool) : Option TreeNode → TreeNode
  | none => TreeNode.new_with_name name final_is_file
  | some (.node n cs f) =>
    if f && !final_is_file then .node n cs false
    else if !f && final_is_file then
      if cs.isEmpty then .node n cs true else .node n cs f
    else .node n cs f

/-- The component loop of `add_path_to_tree_with_type`: every component but
the last is looked up or created as a directory and forced to directory,
the last is resolved by `resolveFinal`. -/
def add_components : TreeNode → List String → Bool → TreeNode
  | root, [], _ => root
  | .node n cs f, [name], final_is_file =>
    .node n (cs.update name (resolveFinal name final_is_file)) f
  | .node n cs f, name :: name2 :: rest, final_is_file =>
    .node n (cs.update name (fun e =>
      add_components (forceDir (e.getD (TreeNode.new_with_name name false)))
        (name2 :: rest) final_is_file)) f

/-- Mirror of `add_path_to_tree_with_type(root, path, final_is_file)`. -/
def add_path_to_tree_with_type (root : TreeNode) (path : String) (final_is_file : Bool) : TreeNode :=
  add_components root (clean_path_components path) final_is_file

/-- Mirror of `add_path_to_tree(root, path)`. -/
def add_path_to_tree (root : TreeNode) (path : String) : TreeNode :=
  add_path_to_tree_with_type root path true

/-- The tree `generate_tree` builds before rendering. -/
def buildTree (paths : List String) : TreeNode :=
  paths.foldl add_path_to_tree TreeNode.new

/-! ### Sorting of siblings -/

/-- Mirror of the comparator in `render_tree`'s `children.sort_by`:
directories before files, then names in lexicographic order; `childLt a b`
holds when `a` sorts strictly before `b`. -/
def childLt (a b : TreeNode) : Bool :=
  match a.is_file, b.is_file with
  | false, true => true
  | true, false => false
  | _, _ => strLt a.name b.name

/-- Stable insertion into a sorted list: place `a` after every element
strictly below it. -/
def insertChild (a : TreeNode) : List TreeNode → List TreeNode
  | [] => [a]
  | b :: rest => if childLt b a then b :: insertChild a rest else a :: b :: rest

/-- Stable insertion sort by `childLt`: extensionally the unique stable
sort, hence the embedding of Rust's stable `sort_by`. -/
def sortChildren : List TreeNode → List TreeNode
  | [] => []
  | a :: rest => insertChild a (sortChildren rest)

/-- Sum of subtree sizes over a list of nodes (termination measure). -/
def sumSizes (l : List TreeNode) : Nat := (l.map TreeNode.size).sum

/-- List-style induction for `ChildMap` (the mutually inductive type has no
directly usable recursor for a single motive). -/
def ChildMap.shallowInd {motive : ChildMap → Prop} (h0 : motive .nil)
    (h1 : ∀ k c rest, motive rest → motive (.cons k c rest)) : ∀ cs, motive cs
  | .nil => h0
  | .cons k c rest => h1 k c rest (ChildMap.shallowInd h0 h1 rest)

/-- Deep induction for `ChildMap`: descend both into the first child's own
children and into the remaining siblings. -/
def ChildMap.deepInd {motive : ChildMap → Prop} (h0 : motive .nil)
    (h1 : ∀ k n gcs f rest, motive gcs → motive rest → motive (.cons k (.node n gcs f) rest)) :
    ∀ cs, motive cs
  | .nil => h0
  | .cons k (.node n gcs f) rest =>
    h1 k n gcs f rest (ChildMap.deepInd h0 h1 gcs) (ChildMap.deepInd h0 h1 rest)

def insertChild_perm : ∀ (a : TreeNode) (l : List TreeNode),
    (insertChild a l).Perm (a :: l) := by
  intro a l
  induction l with
  | nil => simp [insertChild]
  | cons b rest ih =>
    by_cases h : childLt b a = true
    · simpa [insertChild, h] using ((ih.cons b).trans (List.Perm.swap a b rest))
    · simp [insertChild, h]

def sortChildren_perm : ∀ l : List TreeNode, (sortChildren l).Perm l := by
  intro l
  induction l with
  | nil => simp [sortChildren]
  | cons a rest ih =>
    exact (insertChild_perm a (sortChildren rest)).trans (ih.cons a)

def sumSizes_sortChildren (l : List TreeNode) : sumSizes (sortChildren l) = sumSizes l :=
  ((sortChildren_perm l).map TreeNode.size).sum_eq

def sumSizes_values_eq_size : ∀ cs : ChildMap, sumSizes cs.values = cs.size := by
  intro cs
  induction cs using ChildMap.deepInd with
  | h0 => simp [ChildMap.values, sumSizes, ChildMap.size]
  | h1 k n gcs f rest ihg ihr =>
    simp [ChildMap.values, sumSizes, ChildMap.size, TreeNode.size] at *
    omega

def size_pos : ∀ t : TreeNode, 0 < t.size := by
  intro t
  match t with
  | .node n cs f => simp [TreeNode.size]

def children_size_lt : ∀ t : TreeNode, t.children.size < t.size := by
  intro t
  match t with
  | .node n cs f => simp [TreeNode.children, TreeNode.size]

/-! ### Rendering -/

mutual
/-- Mirror of `render_child`: one output line for the node (prefix,
connector, name, `/` for directories, newline) followed by the node's own
subtree with the extended prefix. -/
def render_child (child : TreeNode) (cur_pre : String) (is_last : Bool) (is_root : Bool) : String :=
  (if is_root then "" else cur_pre)
    ++ (if is_last then "└── " else "├── ")
    ++ child.name
    ++ (if child.is_file then "" else "/")
    ++ "\n"
    ++ render_tree child
        ((if is_root then "" else cur_pre) ++ (if is_last then "    " else "│   ")) false
termination_by (child.size, 1)
decreasing_by
  exact Prod.Lex.right child.size (by omega)

/-- Mirror of `render_tree`: sort the children canonically, then render
each in turn. -/
def render_tree (node : TreeNode) (pre : String) (is_root : Bool) : String :=
  render_children (sortChildren node.children.values) pre is_root
termination_by (node.size, 0)
decreasing_by
  apply Prod.Lex.left
  rw [sumSizes_sortChildren, sumSizes_values_eq_size]
  exact children_size_lt node

/-- The `for (i, child) in children.iter().enumerate()` loop of
`render_tree`: the last sibling gets the closing connector. -/
def render_children (l : List TreeNode) (pre : String) (is_root : Bool) : String :=
  match l with
  | [] => ""
  | [c] => render_child c pre true is_root
  | c :: c2 :: rest =>
    render_child c pre false is_root ++ render_children (c2 :: rest) pre is_root
termination_by (sumSizes l, 2)
decreasing_by
  · exact Prod.Lex.right (sumSizes [c]) (by omega)
  · apply Prod.Lex.left
    have := size_pos c2
    simp [sumSizes]
    omega
  · apply Prod.Lex.left
    have := size_pos c
    simp [sumSizes]
    omega
end

/-- Mirror of the public `generate_tree(paths)`. -/
def generate_tree (paths : List String) : String :=
  if paths.isEmpty then ""
  else
    "Directory structure:\n"
      ++ render_tree (buildTree paths) "" true
      ++ "\n"

/-! ### Specification-level definitions (taken from the spec's wording, to be
compared with the embedded source functions) -/

/-- The spec's conflict table as a pure function: given the pre-existing
node's kind and whether it has children (or `none` when absent) and the
requested kind, return the resulting kind.  `true` stands for `File`. -/
def resolveKindSpec (existing : Option (Bool × Bool)) (requested_is_file : Bool) : Bool :=
  match existing, requested_is_file with
  | none, req => req
  | some (true, _), true => true
  | some (true, _), false => false
  | some (false, has_children), true => if has_children then false else true
  | some (false, _), false => false

/-- Insertion as the spec words it: for every non-final component look up or
create a child and force it to `Directory` unconditionally, for the final
component apply the conflict table `resolveKindSpec` to the pre-existing
node (children are never touched by the table). -/
def insertSpec : TreeNode → List String → Bool → TreeNode
  | t, [], _ => t
  | .node nm cs f, [name], requested_is_file =>
    match cs.find name with
    | none => .node nm (cs.set name (.node name .nil requested_is_file)) f
    | some (.node en ecs ef) =>
      .node nm
        (cs.set name (.node en ecs (resolveKindSpec (some (ef, !ecs.isEmpty)) requested_is_file))) f
  | .node nm cs f, name :: name2 :: rest, requested_is_file =>
    let child :=
      match cs.find name with
      | none => TreeNode.new_with_name name false
      | some e => e
    .node nm
      (cs.set name (insertSpec (.node child.name child.children false) (name2 :: rest) requested_is_file)) f

/-- Insertion with the terminal kind fixed to `File`: only the `File`-request
rows of the conflict table exist (absent: create as `File`; existing `File`:
no change; childless `Directory`: demote to `File`; `Directory` with
children: keep).  Used to state that `generate_tree` never exercises the
`Directory`-request rows. -/
def insertFileOnly : TreeNode → List String → TreeNode
  | t, [] => t
  | .node nm cs f, [name] =>
    .node nm
      (cs.update name (fun e =>
        match e with
        | none => TreeNode.new_with_name name true
        | some (.node en ecs ef) =>
          if ef then .node en ecs ef
          else if ecs.isEmpty then .node en ecs true
          else .node en ecs ef)) f
  | .node nm cs f, name :: name2 :: rest =>
    .node nm
      (cs.update name (fun e =>
        insertFileOnly (forceDir (e.getD (TreeNode.new_with_name name false))) (name2 :: rest))) f

/-- Insertion with the demotion row of the conflict table removed: an
existing node at the final component is never changed by a `File` request.
Used to state that the demotion row can never fire through
`generate_tree`. -/
def insertNoDemote : TreeNode → List String → TreeNode
  | t, [] => t
  | .node nm cs f, [name] =>
    .node nm
      (cs.update name (fun e =>
        match e with
        | none => TreeNode.new_with_name name true
        | some e => e)) f
  | .node nm cs f, name :: name2 :: rest =>
    .node nm
      (cs.update name (fun e =>
        insertNoDemote (forceDir (e.getD (TreeNode.new_with_name name false))) (name2 :: rest))) f

/-! ### Invariant predicates and observation helpers -/

/-- Every node in the map that has at least one child is tagged as a
directory (checked recursively through the whole forest). -/
def kindOK : ChildMap → Bool
  | .nil => true
  | .cons _ (.node _ gcs f) rest => (gcs.isEmpty || !f) && kindOK gcs && kindOK rest

/-- Every node in the map that is tagged as a directory has at least one
child (checked recursively through the whole forest). -/
def dirsOK : ChildMap → Bool
  | .nil => true
  | .cons _ (.node _ gcs f) rest => (f || !gcs.isEmpty) && dirsOK gcs && dirsOK rest

/-- Walk a component path down the tree, returning the node it denotes. -/
def lookupPath : TreeNode → List String → Option TreeNode
  | t, [] => some t
  | t, k :: rest =>
    match t.children.find k with
    | none => none
    | some c => lookupPath c rest

/-- Fold a batch of `(components, final_is_file)` insertions from the fresh
root, modelling an arbitrary sequence of builder calls. -/
def buildOps (ops : List (List String × Bool)) : TreeNode :=
  ops.foldl (fun t op => add_components t op.1 op.2) TreeNode.new

/-- Position of the first occurrence of a pattern in a character list. -/
def findSub (pat : List Char) : List Char → Option Nat
  | [] => if pat.isEmpty then some 0 else none
  | c :: rest =>
    if pat.isPrefixOf (c :: rest) then some 0
    else (findSub pat rest).map (· + 1)

/-- Position of the first occurrence of `pat` inside `s`, or `none`. -/
def subPos (pat s : String) : Option Nat := findSub pat.data s.data

/-- Number of lines of `s` that contain `pat` as a substring. -/
def linesContaining (pat s : String) : Nat :=
  ((splitOnChar '\n' s.data).filter (fun line => (findSub pat.data line).isSome)).length

/-- The canonical sibling order stated by the spec: directories sort before
files, and within the same kind names sort by plain lexicographic
comparison. -/
def canonicalLE (a b : TreeNode) : Prop :=
  (a.is_file = false ∧ b.is_file = true)
    ∨ (a.is_file = b.is_file ∧ strLt b.name a.name = false)


/-! ### Order facts about `charsLt` and `strLt` -/

theorem charsLt_nil_nil : charsLt [] [] = false := rfl

theorem charsLt_nil_cons (y : Char) (ys : List Char) : charsLt [] (y :: ys) = true := rfl

theorem charsLt_cons_nil (x : Char) (xs : List Char) : charsLt (x :: xs) [] = false := rfl

theorem charsLt_cons (x y : Char) (xs ys : List Char) :
    charsLt (x :: xs) (y :: ys)
      = if x < y then true else if y < x then false else charsLt xs ys := rfl

theorem charsLt_irrefl : ∀ l : List Char, charsLt l l = false := by
  intro l
  induction l with
  | nil => rfl
  | cons c rest ih => simp [charsLt_cons, ih]

theorem charsLt_asymm : ∀ a b : List Char, charsLt a b = true → charsLt b a = false := by
  intro a
  induction a with
  | nil =>
    intro b hab
    match b with
    | [] => exact absurd hab (by simp [charsLt_nil_nil])
    | _ :: _ => exact charsLt_cons_nil _ _
  | cons x xs ih =>
    intro b hab
    match b with
    | [] => exact absurd hab (by simp [charsLt_cons_nil])
    | y :: ys =>
      rw [charsLt_cons] at hab
      rw [charsLt_cons]
      rcases lt_trichotomy x y with h | h | h
      · simp [h, asymm h]
      · subst h
        simp [lt_irrefl] at hab ⊢
        exact ih ys hab
      · simp [h, asymm h] at hab

theorem charsLt_conn : ∀ a b : List Char, charsLt a b = false → charsLt b a = false → a = b := by
  intro a
  induction a with
  | nil =>
    intro b hab _
    match b with
    | [] => rfl
    | _ :: _ => exact absurd hab (by simp [charsLt_nil_cons])
  | cons x xs ih =>
    intro b hab hba
    match b with
    | [] => exact absurd hba (by simp [charsLt_nil_cons])
    | y :: ys =>
      rw [charsLt_cons] at hab hba
      rcases lt_trichotomy x y with h | h | h
      · simp [h] at hab
      · subst h
        simp [lt_irrefl] at hab hba
        rw [ih ys hab hba]
      · simp [h, asymm h] at hba

theorem charsLt_trans :
    ∀ a b c : List Char, charsLt a b = true → charsLt b c = true → charsLt a c = true := by
  intro a
  induction a with
  | nil =>
    intro b c hab hbc
    match b, c with
    | [], _ => exact absurd hab (by simp [charsLt_nil_nil])
    | _ :: _, [] => exact absurd hbc (by simp [charsLt_cons_nil])
    | _ :: _, _ :: _ => exact charsLt_nil_cons _ _
  | cons x xs ih =>
    intro b c hab hbc
    match b, c with
    | [], _ => exact absurd hab (by simp [charsLt_cons_nil])
    | _ :: _, [] => exact absurd hbc (by simp [charsLt_cons_nil])
    | y :: ys, z :: zs =>
      rw [charsLt_cons] at hab hbc
      rw [charsLt_cons]
      rcases lt_trichotomy x y with h | h | h
      · rcases lt_trichotomy y z with h' | h' | h'
        · simp [lt_trans h h']
        · subst h'
          simp [h]
        · simp [h', asymm h'] at hbc
      · subst h
        rcases lt_trichotomy x z with h' | h' | h'
        · simp [h']
        · subst h'
          simp [lt_irrefl] at hab hbc ⊢
          exact ih ys zs hab hbc
        · simp [h', asymm h'] at hbc
      · simp [h, asymm h] at hab

theorem strLt_irrefl (s : String) : strLt s s = false := charsLt_irrefl s.data

theorem strLt_asymm {a b : String} (h : strLt a b = true) : strLt b a = false :=
  charsLt_asymm a.data b.data h

theorem strLt_conn {a b : String} (hab : strLt a b = false) (hba : strLt b a = false) : a = b :=
  String.ext (charsLt_conn a.data b.data hab hba)

theorem strLt_trans {a b c : String} (hab : strLt a b = true) (hbc : strLt b c = true) :
    strLt a c = true :=
  charsLt_trans a.data b.data c.data hab hbc

theorem strLt_ne {a b : String} (h : strLt a b = true) : a ≠ b := by
  intro he
  subst he
  simp [strLt_irrefl] at h

theorem strLt_cases (a b : String) :
    strLt a b = true ∨ a = b ∨ strLt b a = true := by
  by_cases h1 : strLt a b = true
  · exact Or.inl h1
  · by_cases h2 : strLt b a = true
    · exact Or.inr (Or.inr h2)
    · exact Or.inr (Or.inl (strLt_conn (Bool.eq_false_iff.mpr h1) (Bool.eq_false_iff.mpr h2)))

/-! ### Map algebra for `ChildMap` -/

theorem find_nil (k : String) : ChildMap.nil.find k = none := rfl

theorem find_cons (k0 : String) (c : TreeNode) (rest : ChildMap) (k : String) :
    (ChildMap.cons k0 c rest).find k = if k = k0 then some c else rest.find k := rfl

theorem set_nil (k : String) (v : TreeNode) : ChildMap.nil.set k v = .cons k v .nil := rfl

theorem set_cons (k0 : String) (c : TreeNode) (rest : ChildMap) (k : String) (v : TreeNode) :
    (ChildMap.cons k0 c rest).set k v
      = if strLt k k0 then .cons k v (.cons k0 c rest)
        else if k = k0 then .cons k v rest
        else .cons k0 c (rest.set k v) := rfl

theorem find_set_self : ∀ (cs : ChildMap) (k : String) (v : TreeNode),
    (cs.set k v).find k = some v := by
  intro cs k v
  induction cs using ChildMap.shallowInd with
  | h0 => simp [set_nil, find_cons]
  | h1 k0 c rest ih =>
    rw [set_cons]
    by_cases hlt : strLt k k0 = true
    · simp [hlt, find_cons]
    · by_cases he : k = k0
      · subst he
        simp [hlt, find_cons]
      · simp [hlt, he, find_cons, ih]

theorem find_set_other : ∀ (cs : ChildMap) (k k' : String) (v : TreeNode), k' ≠ k →
    (cs.set k v).find k' = cs.find k' := by
  intro cs k k' v hne
  induction cs using ChildMap.shallowInd with
  | h0 => simp [set_nil, find_cons, find_nil, hne]
  | h1 k0 c rest ih =>
    rw [set_cons]
    by_cases hlt : strLt k k0 = true
    · simp [hlt, find_cons, hne]
    · by_cases he : k = k0
      · subst he
        simp [hlt, find_cons, hne]
      · simp [hlt, he, find_cons, ih]

theorem set_set_self : ∀ (cs : ChildMap) (k : String) (v v' : TreeNode),
    (cs.set k v).set k v' = cs.set k v' := by
  intro cs k v v'
  induction cs using ChildMap.shallowInd with
  | h0 => simp [set_nil, set_cons, strLt_irrefl]
  | h1 k0 c rest ih =>
    by_cases hlt : strLt k k0 = true
    · simp [set_cons, hlt, strLt_irrefl]
    · by_cases he : k = k0
      · subst he
        simp [set_cons, hlt, strLt_irrefl]
      · simp [set_cons, hlt, he, ih]

theorem set_comm_aux : ∀ (cs : ChildMap) (k k' : String) (v v' : TreeNode),
    strLt k k' = true → (cs.set k v).set k' v' = (cs.set k' v').set k v := by
  intro cs k k' v v' hlt
  have hne : k ≠ k' := strLt_ne hlt
  have hgt : strLt k' k = false := strLt_asymm hlt
  induction cs using ChildMap.shallowInd with
  | h0 => simp [set_nil, set_cons, hlt, hgt, hne, Ne.symm hne]
  | h1 k0 c rest ih =>
    rcases strLt_cases k k0 with ha | ha | ha
    · -- k sorts before the head: k goes first on the left
      rcases strLt_cases k' k0 with hb | hb | hb
      · simp [set_cons, ha, hb, hlt, hgt, hne, Ne.symm hne]
      · subst hb
        simp [set_cons, ha, hlt, hgt, hne, Ne.symm hne, strLt_irrefl]
      · have hb' : strLt k' k0 = false := strLt_asymm hb
        have hbe : k' ≠ k0 := (strLt_ne hb).symm
        simp [set_cons, ha, hb', hbe, hlt, hgt, hne, Ne.symm hne]
    · subst ha
      -- k equals the head key: replaced in place on the left
      have hb' : strLt k' k = false := hgt
      have hbe : k' ≠ k := Ne.symm hne
      simp [set_cons, strLt_irrefl, hlt, hb', hbe, hne]
    · -- the head sorts before k (and hence before k'), both recurse
      have ha' : strLt k k0 = false := strLt_asymm ha
      have hae : k ≠ k0 := (strLt_ne ha).symm
      have hb : strLt k0 k' = true := strLt_trans ha hlt
      have hb' : strLt k' k0 = false := strLt_asymm hb
      have hbe : k' ≠ k0 := (strLt_ne hb).symm
      simp [set_cons, ha', hae, hb', hbe, ih]

theorem set_comm (cs : ChildMap) (k k' : String) (v v' : TreeNode) (hne : k ≠ k') :
    (cs.set k v).set k' v' = (cs.set k' v').set k v := by
  rcases strLt_cases k k' with h | h | h
  · exact set_comm_aux cs k k' v v' h
  · exact absurd h hne
  · exact (set_comm_aux cs k' k v' v h).symm

theorem set_isEmpty_false : ∀ (cs : ChildMap) (k : String) (v : TreeNode),
    (cs.set k v).isEmpty = false := by
  intro cs k v
  induction cs using ChildMap.shallowInd with
  | h0 => simp [set_nil, ChildMap.isEmpty]
  | h1 k0 c rest ih =>
    rw [set_cons]
    by_cases hlt : strLt k k0 = true
    · simp [hlt, ChildMap.isEmpty]
    · by_cases he : k = k0
      · simp [hlt, he, strLt_irrefl, ChildMap.isEmpty]
      · simp [hlt, he, ChildMap.isEmpty]

theorem set_ne_nil (cs : ChildMap) (k : String) (v : TreeNode) : cs.set k v ≠ .nil := by
  intro h
  have := set_isEmpty_false cs k v
  rw [h] at this
  simp [ChildMap.isEmpty] at this

theorem update_update_same (cs : ChildMap) (k : String) (f g : Option TreeNode → TreeNode) :
    (cs.update k f).update k g = cs.set k (g (some (f (cs.find k)))) := by
  simp [ChildMap.update, find_set_self, set_set_self]

theorem update_comm (cs : ChildMap) (k k' : String) (f g : Option TreeNode → TreeNode)
    (hne : k ≠ k') : (cs.update k f).update k' g = (cs.update k' g).update k f := by
  simp [ChildMap.update, find_set_other _ _ _ _ (Ne.symm hne), find_set_other _ _ _ _ hne]
  exact set_comm cs k k' _ _ hne

theorem update_isEmpty_false (cs : ChildMap) (k : String) (f : Option TreeNode → TreeNode) :
    (cs.update k f).isEmpty = false := set_isEmpty_false cs k _

theorem find_update_self (cs : ChildMap) (k : String) (f : Option TreeNode → TreeNode) :
    (cs.update k f).find k = some (f (cs.find k)) := by
  simp [ChildMap.update, find_set_self]

theorem find_update_other (cs : ChildMap) (k k' : String) (f : Option TreeNode → TreeNode)
    (hne : k' ≠ k) : (cs.update k f).find k' = cs.find k' := by
  simp [ChildMap.update, find_set_other _ _ _ _ hne]

/-! ### Basic facts about nodes and insertion -/

theorem TreeNode.eta : ∀ t : TreeNode, TreeNode.node t.name t.children t.is_file = t := by
  intro t
  match t with
  | .node n cs f => rfl

theorem add_nil (t : TreeNode) (fif : Bool) : add_components t [] fif = t := by
  match t with
  | .node n cs f => rfl

theorem add_one (t : TreeNode) (name : String) (fif : Bool) :
    add_components t [name] fif
      = .node t.name (t.children.update name (resolveFinal name fif)) t.is_file := by
  match t with
  | .node n cs f => rfl

theorem add_cons (t : TreeNode) (name name2 : String) (rest : List String) (fif : Bool) :
    add_components t (name :: name2 :: rest) fif
      = .node t.name
          (t.children.update name (fun e =>
            add_components (forceDir (e.getD (TreeNode.new_with_name name false)))
              (name2 :: rest) fif))
          t.is_file := by
  match t with
  | .node n cs f => rfl

theorem add_name (t : TreeNode) (comps : List String) (fif : Bool) :
    (add_components t comps fif).name = t.name := by
  match comps with
  | [] => rw [add_nil]
  | [name] => rw [add_one]; rfl
  | name :: name2 :: rest => rw [add_cons]; rfl

theorem add_is_file (t : TreeNode) (comps : List String) (fif : Bool) :
    (add_components t comps fif).is_file = t.is_file := by
  match comps with
  | [] => rw [add_nil]
  | [name] => rw [add_one]; rfl
  | name :: name2 :: rest => rw [add_cons]; rfl

theorem add_children_isEmpty_false (t : TreeNode) (comps : List String) (fif : Bool)
    (h : comps ≠ []) : (add_components t comps fif).children.isEmpty = false := by
  match comps with
  | [] => exact absurd rfl h
  | [name] =>
    rw [add_one]
    simp only [TreeNode.children]
    exact update_isEmpty_false _ _ _
  | name :: name2 :: rest =>
    rw [add_cons]
    simp only [TreeNode.children]
    exact update_isEmpty_false _ _ _

theorem forceDir_node (t : TreeNode) : forceDir t = .node t.name t.children false := by
  rw [forceDir]
  by_cases h : t.is_file = true
  · simp [h]
  · simp [h]
    rw [← Bool.eq_false_iff.mpr h]
    exact (TreeNode.eta t).symm

theorem forceDir_of_dir (t : TreeNode) (h : t.is_file = false) : forceDir t = t := by
  rw [forceDir_node, ← h]
  exact TreeNode.eta t

theorem forceDir_name (t : TreeNode) : (forceDir t).name = t.name := by
  rw [forceDir_node]
  rfl

theorem forceDir_children (t : TreeNode) : (forceDir t).children = t.children := by
  rw [forceDir_node]
  rfl

theorem forceDir_is_file (t : TreeNode) : (forceDir t).is_file = false := by
  rw [forceDir_node]
  rfl

theorem resolveFinal_none (name : String) (fif : Bool) :
    resolveFinal name fif none = TreeNode.new_with_name name fif := rfl

theorem resolveFinal_some (name : String) (fif : Bool) (n : String) (cs : ChildMap) (f : Bool) :
    resolveFinal name fif (some (.node n cs f))
      = .node n cs
          (if f && !fif then false
           else if !f && fif then (if cs.isEmpty then true else f)
           else f) := by
  simp only [resolveFinal]
  split_ifs <;> rfl

theorem resolveFinal_children (name : String) (fif : Bool) (e : TreeNode) :
    (resolveFinal name fif (some e)).children = e.children := by
  match e with
  | .node n cs f => rw [resolveFinal_some]; rfl

theorem resolveFinal_name_eq (name : String) (fif : Bool) (e : TreeNode) :
    (resolveFinal name fif (some e)).name = e.name := by
  match e with
  | .node n cs f => rw [resolveFinal_some]; rfl

theorem forceDir_resolveFinal (name : String) (e : Option TreeNode) :
    forceDir (resolveFinal name true e)
      = forceDir (e.getD (TreeNode.new_with_name name false)) := by
  match e with
  | none => rfl
  | some (.node n cs f) =>
    rw [resolveFinal_some]
    simp only [Option.getD]
    rw [forceDir_node, forceDir_node]
    rfl

theorem resolveFinal_true_dir_nonempty (name : String) (e : TreeNode)
    (hdir : e.is_file = false) (hne : e.children.isEmpty = false) :
    resolveFinal name true (some e) = e := by
  match e with
  | .node n cs f =>
    simp [TreeNode.is_file] at hdir
    simp [TreeNode.children] at hne
    subst hdir
    rw [resolveFinal_some]
    simp [hne]

theorem resolveFinal_true_idem (name : String) (e : Option TreeNode) :
    resolveFinal name true (some (resolveFinal name true e)) = resolveFinal name true e := by
  match e with
  | none =>
    rw [resolveFinal_none]
    rw [show TreeNode.new_with_name name true = .node name .nil true from rfl]
    rw [resolveFinal_some]
    rfl
  | some (.node n cs f) =>
    rw [resolveFinal_some]
    by_cases hf : f = true
    · subst hf
      simp only [Bool.and_false, Bool.not_true, Bool.false_and, if_false]
      rw [resolveFinal_some]
      simp
    · simp only [Bool.eq_false_iff.mpr hf] at *
      by_cases hemp : cs.isEmpty = true
      · simp only [hemp, Bool.not_false, Bool.true_and, Bool.and_true, if_true, Bool.false_and, if_false]
        rw [resolveFinal_some]
        simp [hemp]
      · simp only [Bool.eq_false_iff.mpr hemp, Bool.not_false, Bool.true_and, Bool.and_true, Bool.false_and, if_false, if_true]
        rw [resolveFinal_some]
        simp [Bool.eq_false_iff.mpr hemp]

/-! ### Commutativity of insertion (terminal kind `File`) -/

theorem final_inter_interact (a b2 : String) (q' : List String) (e : Option TreeNode) :
    add_components
        (forceDir ((some (resolveFinal a true e)).getD (TreeNode.new_with_name a false)))
        (b2 :: q') true
      = resolveFinal a true
          (some (add_components (forceDir (e.getD (TreeNode.new_with_name a false))) (b2 :: q') true)) := by
  have h1 : (some (resolveFinal a true e)).getD (TreeNode.new_with_name a false)
      = resolveFinal a true e := rfl
  rw [h1, forceDir_resolveFinal]
  have hdir :
      (add_components (forceDir (e.getD (TreeNode.new_with_name a false))) (b2 :: q') true).is_file
        = false := by
    rw [add_is_file, forceDir_is_file]
  have hne :
      (add_components (forceDir (e.getD (TreeNode.new_with_name a false))) (b2 :: q') true).children.isEmpty
        = false :=
    add_children_isEmpty_false _ _ _ (by simp)
  rw [resolveFinal_true_dir_nonempty _ _ hdir hne]

theorem add_add_comm_core : ∀ (fuel : Nat) (p q : List String) (t : TreeNode),
    p.length + q.length ≤ fuel →
    add_components (add_components t p true) q true
      = add_components (add_components t q true) p true := by
  intro fuel
  induction fuel with
  | zero =>
    intro p q t hlen
    match p, q with
    | [], [] => rfl
    | a :: p', _ => simp at hlen
    | [], b :: q' => simp at hlen
  | succ m ih =>
    intro p q t hlen
    match p, q with
    | [], _ => simp [add_nil]
    | a :: p', [] => simp [add_nil]
    | [a], [b] =>
      simp only [add_one, TreeNode.name, TreeNode.children, TreeNode.is_file]
      by_cases hab : a = b
      · subst hab
        rfl
      · rw [update_comm _ _ _ _ _ hab]
    | [a], b :: b2 :: q' =>
      simp only [add_one, add_cons, TreeNode.name, TreeNode.children, TreeNode.is_file]
      by_cases hab : a = b
      · subst hab
        rw [update_update_same, update_update_same]
        congr 1
        congr 1
        exact final_inter_interact a b2 q' (t.children.find a)
      · rw [update_comm _ _ _ _ _ hab]
    | a :: a2 :: p', [b] =>
      simp only [add_one, add_cons, TreeNode.name, TreeNode.children, TreeNode.is_file]
      by_cases hab : a = b
      · subst hab
        rw [update_update_same, update_update_same]
        congr 1
        congr 1
        exact (final_inter_interact a a2 p' (t.children.find a)).symm
      · rw [update_comm _ _ _ _ _ hab]
    | a :: a2 :: p', b :: b2 :: q' =>
      simp only [add_cons, TreeNode.name, TreeNode.children, TreeNode.is_file]
      by_cases hab : a = b
      · subst hab
        rw [update_update_same, update_update_same]
        congr 1
        congr 1
        have hgd :
            ∀ (z : TreeNode),
              (some z).getD (TreeNode.new_with_name a false) = z := fun z => rfl
        rw [hgd, hgd]
        have hfd :
            ∀ (comps : List String) (z : TreeNode),
              forceDir (add_components (forceDir z) comps true)
                = add_components (forceDir z) comps true := by
          intro comps z
          apply forceDir_of_dir
          rw [add_is_file, forceDir_is_file]
        rw [hfd, hfd]
        have hlen' : (a2 :: p').length + (b2 :: q').length ≤ m := by
          simp at hlen ⊢
          omega
        exact ih (a2 :: p') (b2 :: q') _ hlen'
      · rw [update_comm _ _ _ _ _ hab]

theorem add_add_comm (p q : List String) (t : TreeNode) :
    add_components (add_components t p true) q true
      = add_components (add_components t q true) p true :=
  add_add_comm_core (p.length + q.length) p q t le_rfl

theorem add_path_right_comm (t : TreeNode) (p q : String) :
    add_path_to_tree (add_path_to_tree t p) q = add_path_to_tree (add_path_to_tree t q) p := by
  simp only [add_path_to_tree, add_path_to_tree_with_type]
  exact add_add_comm (clean_path_components p) (clean_path_components q) t

/-! ### Idempotence of insertion over a full path -/

theorem add_components_idem : ∀ (p : List String) (t : TreeNode),
    add_components (add_components t p true) p true = add_components t p true := by
  intro p
  induction p with
  | nil =>
    intro t
    simp [add_nil]
  | cons a rest ih =>
    intro t
    match rest with
    | [] =>
      simp only [add_one, TreeNode.name, TreeNode.children, TreeNode.is_file]
      rw [update_update_same]
      congr 1
      congr 1
      exact resolveFinal_true_idem a _
    | a2 :: p' =>
      simp only [add_cons, TreeNode.name, TreeNode.children, TreeNode.is_file]
      rw [update_update_same]
      congr 1
      congr 1
      have hgd : ∀ (z : TreeNode), (some z).getD (TreeNode.new_with_name a false) = z :=
        fun z => rfl
      rw [hgd]
      rw [forceDir_of_dir _ (by rw [add_is_file, forceDir_is_file])]
      exact ih _

theorem add_path_idem (t : TreeNode) (p : String) :
    add_path_to_tree (add_path_to_tree t p) p = add_path_to_tree t p := by
  simp only [add_path_to_tree, add_path_to_tree_with_type]
  exact add_components_idem (clean_path_components p) t

/-! ### The insertion algorithm equals its specification-table form -/

theorem resolveFinal_eq_spec (name : String) (fif : Bool) (n : String) (cs : ChildMap) (f : Bool) :
    resolveFinal name fif (some (.node n cs f))
      = .node n cs (resolveKindSpec (some (f, !cs.isEmpty)) fif) := by
  rw [resolveFinal_some]
  congr 1
  match f, fif with
  | true, true => rfl
  | true, false => rfl
  | false, false => rfl
  | false, true =>
    by_cases h : cs.isEmpty = true
    · simp [h, resolveKindSpec]
    · simp [Bool.eq_false_iff.mpr h, resolveKindSpec]

theorem add_eq_insertSpec : ∀ (comps : List String) (t : TreeNode) (fif : Bool),
    add_components t comps fif = insertSpec t comps fif := by
  intro comps
  induction comps with
  | nil =>
    intro t fif
    match t with
    | .node nm cs f => rfl
  | cons a rest ih =>
    intro t fif
    match t with
    | .node nm cs f =>
      match rest with
      | [] =>
        simp only [add_one, TreeNode.name, TreeNode.children, TreeNode.is_file, insertSpec,
          ChildMap.update]
        rcases hfind : cs.find a with _ | e
        · rfl
        · match e with
          | .node en ecs ef =>
            show TreeNode.node nm (cs.set a (resolveFinal a fif (some (.node en ecs ef)))) f
              = TreeNode.node nm
                  (cs.set a (.node en ecs (resolveKindSpec (some (ef, !ecs.isEmpty)) fif))) f
            congr 1
            congr 1
            exact resolveFinal_eq_spec a fif en ecs ef
      | a2 :: p' =>
        simp only [add_cons, TreeNode.name, TreeNode.children, TreeNode.is_file, insertSpec,
          ChildMap.update]
        congr 1
        congr 1
        rcases hfind : cs.find a with _ | e
        · exact ih (forceDir (TreeNode.new_with_name a false)) fif
        · show add_components (forceDir e) (a2 :: p') fif
            = insertSpec (.node e.name e.children false) (a2 :: p') fif
          rw [forceDir_node]
          exact ih _ fif

/-! ### Terminal kind is always `File` through the public interface -/

theorem add_true_eq_fileOnly : ∀ (comps : List String) (t : TreeNode),
    add_components t comps true = insertFileOnly t comps := by
  intro comps
  induction comps with
  | nil =>
    intro t
    match t with
    | .node nm cs f => rfl
  | cons a rest ih =>
    intro t
    match t with
    | .node nm cs f =>
      match rest with
      | [] =>
        simp only [add_one, TreeNode.name, TreeNode.children, TreeNode.is_file, insertFileOnly]
        congr 1
        refine congrArg _ (funext fun e => ?_)
        rcases e with _ | e
        · rfl
        · match e with
          | .node en ecs ef =>
            rw [resolveFinal_some]
            match ef with
            | true => simp
            | false =>
              by_cases h : ecs.isEmpty = true
              · simp [h]
              · simp [Bool.eq_false_iff.mpr h]
      | a2 :: p' =>
        simp only [add_cons, TreeNode.name, TreeNode.children, TreeNode.is_file, insertFileOnly]
        congr 1
        refine congrArg _ (funext fun e => ?_)
        exact ih _

/-! ### The children-imply-directory invariant -/

theorem kindOK_nil : kindOK .nil = true := rfl

theorem kindOK_cons (k : String) (n : String) (gcs : ChildMap) (f : Bool) (rest : ChildMap) :
    kindOK (.cons k (.node n gcs f) rest)
      = ((gcs.isEmpty || !f) && kindOK gcs && kindOK rest) := rfl

theorem kindOK_find : ∀ (cs : ChildMap), kindOK cs = true →
    ∀ (k : String) (e : TreeNode), cs.find k = some e →
      (e.children.isEmpty || !e.is_file) = true ∧ kindOK e.children = true := by
  intro cs
  induction cs using ChildMap.deepInd with
  | h0 =>
    intro _ k e hfind
    simp [find_nil] at hfind
  | h1 k0 n gcs f rest ihg ihr =>
    intro hok k e hfind
    rw [kindOK_cons] at hok
    simp only [Bool.and_eq_true] at hok
    rw [find_cons] at hfind
    by_cases hk : k = k0
    · rw [if_pos hk] at hfind
      cases hfind
      exact ⟨hok.1.1, hok.1.2⟩
    · rw [if_neg hk] at hfind
      exact ihr hok.2 k e hfind

theorem kindOK_set : ∀ (cs : ChildMap) (k : String) (v : TreeNode), kindOK cs = true →
    (v.children.isEmpty || !v.is_file) = true → kindOK v.children = true →
    kindOK (cs.set k v) = true := by
  intro cs k v hok hv1 hv2
  induction cs using ChildMap.deepInd with
  | h0 =>
    rw [set_nil]
    match v with
    | .node vn vcs vf =>
      rw [kindOK_cons]
      simp only [TreeNode.children, TreeNode.is_file] at hv1 hv2
      simp [hv1, hv2, kindOK_nil]
  | h1 k0 n gcs f rest ihg ihr =>
    rw [kindOK_cons] at hok
    simp only [Bool.and_eq_true] at hok
    rw [set_cons]
    by_cases hlt : strLt k k0 = true
    · rw [if_pos hlt]
      match v with
      | .node vn vcs vf =>
        rw [kindOK_cons]
        simp only [TreeNode.children, TreeNode.is_file] at hv1 hv2
        simp [hv1, hv2, kindOK_cons, hok.1.1, hok.1.2, hok.2]
    · rw [if_neg hlt]
      by_cases he : k = k0
      · rw [if_pos he]
        match v with
        | .node vn vcs vf =>
          rw [kindOK_cons]
          simp only [TreeNode.children, TreeNode.is_file] at hv1 hv2
          simp [hv1, hv2, hok.2]
      · rw [if_neg he]
        rw [kindOK_cons]
        simp [hok.1.1, hok.1.2, ihr hok.2]

theorem kindOK_add : ∀ (comps : List String) (t : TreeNode) (fif : Bool),
    kindOK t.children = true → kindOK (add_components t comps fif).children = true := by
  intro comps
  induction comps with
  | nil =>
    intro t fif h
    rw [add_nil]
    exact h
  | cons a rest ih =>
    intro t fif h
    match t with
    | .node nm cs f =>
      simp only [TreeNode.children] at h
      match rest with
      | [] =>
        rw [add_one]
        simp only [TreeNode.name, TreeNode.children, TreeNode.is_file, ChildMap.update]
        rcases hfind : cs.find a with _ | e
        · apply kindOK_set _ _ _ h
          · rfl
          · rfl
        · have hent := kindOK_find cs h a e hfind
          apply kindOK_set _ _ _ h
          · match e with
            | .node en ecs ef =>
              rw [resolveFinal_some]
              simp only [TreeNode.children, TreeNode.is_file] at hent ⊢
              rcases hent with ⟨h1, _⟩
              by_cases hemp : ecs.isEmpty = true
              · simp [hemp]
              · simp only [Bool.eq_false_iff.mpr hemp, Bool.or_false] at h1 ⊢
                split_ifs <;> simp_all
          · rw [resolveFinal_children]
            exact hent.2
      | a2 :: p' =>
        rw [add_cons]
        simp only [TreeNode.name, TreeNode.children, TreeNode.is_file, ChildMap.update]
        rcases hfind : cs.find a with _ | e
        · apply kindOK_set _ _ _ h
          · have hfi : (add_components (forceDir (TreeNode.new_with_name a false))
                (a2 :: p') fif).is_file = false := by
              rw [add_is_file, forceDir_is_file]
            simp [hfi]
          · apply ih
            rw [forceDir_children]
            rfl
        · have hent := kindOK_find cs h a e hfind
          apply kindOK_set _ _ _ h
          · have hfi : (add_components (forceDir e) (a2 :: p') fif).is_file = false := by
              rw [add_is_file, forceDir_is_file]
            simp [hfi]
          · apply ih
            rw [forceDir_children]
            exact hent.2

/-! ### The directories-have-children invariant (terminal kind `File`) -/

theorem dirsOK_nil : dirsOK .nil = true := rfl

theorem dirsOK_cons (k : String) (n : String) (gcs : ChildMap) (f : Bool) (rest : ChildMap) :
    dirsOK (.cons k (.node n gcs f) rest)
      = ((f || !gcs.isEmpty) && dirsOK gcs && dirsOK rest) := rfl

theorem dirsOK_find : ∀ (cs : ChildMap), dirsOK cs = true →
    ∀ (k : String) (e : TreeNode), cs.find k = some e →
      (e.is_file || !e.children.isEmpty) = true ∧ dirsOK e.children = true := by
  intro cs
  induction cs using ChildMap.deepInd with
  | h0 =>
    intro _ k e hfind
    simp [find_nil] at hfind
  | h1 k0 n gcs f rest ihg ihr =>
    intro hok k e hfind
    rw [dirsOK_cons] at hok
    simp only [Bool.and_eq_true] at hok
    rw [find_cons] at hfind
    by_cases hk : k = k0
    · rw [if_pos hk] at hfind
      cases hfind
      exact ⟨hok.1.1, hok.1.2⟩
    · rw [if_neg hk] at hfind
      exact ihr hok.2 k e hfind

theorem dirsOK_set : ∀ (cs : ChildMap) (k : String) (v : TreeNode), dirsOK cs = true →
    (v.is_file || !v.children.isEmpty) = true → dirsOK v.children = true →
    dirsOK (cs.set k v) = true := by
  intro cs k v hok hv1 hv2
  induction cs using ChildMap.deepInd with
  | h0 =>
    rw [set_nil]
    match v with
    | .node vn vcs vf =>
      rw [dirsOK_cons]
      simp only [TreeNode.children, TreeNode.is_file] at hv1 hv2
      simp [hv1, hv2, dirsOK_nil]
  | h1 k0 n gcs f rest ihg ihr =>
    rw [dirsOK_cons] at hok
    simp only [Bool.and_eq_true] at hok
    rw [set_cons]
    by_cases hlt : strLt k k0 = true
    · rw [if_pos hlt]
      match v with
      | .node vn vcs vf =>
        rw [dirsOK_cons]
        simp only [TreeNode.children, TreeNode.is_file] at hv1 hv2
        simp [hv1, hv2, dirsOK_cons, hok.1.1, hok.1.2, hok.2]
    · rw [if_neg hlt]
      by_cases he : k = k0
      · rw [if_pos he]
        match v with
        | .node vn vcs vf =>
          rw [dirsOK_cons]
          simp only [TreeNode.children, TreeNode.is_file] at hv1 hv2
          simp [hv1, hv2, hok.2]
      · rw [if_neg he]
        rw [dirsOK_cons]
        simp [hok.1.1, hok.1.2, ihr hok.2]

theorem dirsOK_add : ∀ (comps : List String) (t : TreeNode),
    dirsOK t.children = true → dirsOK (add_components t comps true).children = true := by
  intro comps
  induction comps with
  | nil =>
    intro t h
    rw [add_nil]
    exact h
  | cons a rest ih =>
    intro t h
    match t with
    | .node nm cs f =>
      simp only [TreeNode.children] at h
      match rest with
      | [] =>
        rw [add_one]
        simp only [TreeNode.name, TreeNode.children, TreeNode.is_file, ChildMap.update]
        rcases hfind : cs.find a with _ | e
        · apply dirsOK_set _ _ _ h
          · rfl
          · rfl
        · have hent := dirsOK_find cs h a e hfind
          apply dirsOK_set _ _ _ h
          · match e with
            | .node en ecs ef =>
              rw [resolveFinal_some]
              simp only [TreeNode.children, TreeNode.is_file] at hent ⊢
              rcases hent with ⟨h1, _⟩
              by_cases hf : ef = true
              · simp [hf]
              · simp only [Bool.eq_false_iff.mpr hf, Bool.false_or] at h1
                by_cases hemp : ecs.isEmpty = true
                · simp [hemp] at h1
                · simp [Bool.eq_false_iff.mpr hf, hemp, Bool.eq_false_iff.mpr hemp]
          · rw [resolveFinal_children]
            exact hent.2
      | a2 :: p' =>
        rw [add_cons]
        simp only [TreeNode.name, TreeNode.children, TreeNode.is_file, ChildMap.update]
        rcases hfind : cs.find a with _ | e
        · apply dirsOK_set _ _ _ h
          · have hne := add_children_isEmpty_false
              (forceDir (TreeNode.new_with_name a false)) (a2 :: p') true (by simp)
            simp [hne]
          · apply ih
            rw [forceDir_children]
            rfl
        · have hent := dirsOK_find cs h a e hfind
          apply dirsOK_set _ _ _ h
          · have hne := add_children_isEmpty_false
              (forceDir e) (a2 :: p') true (by simp)
            simp [hne]
          · apply ih
            rw [forceDir_children]
            exact hent.2

/-! ### On trees where directories have children, the demotion row is dead -/

theorem add_eq_noDemote : ∀ (comps : List String) (t : TreeNode),
    dirsOK t.children = true → add_components t comps true = insertNoDemote t comps := by
  intro comps
  induction comps with
  | nil =>
    intro t _
    match t with
    | .node nm cs f => rfl
  | cons a rest ih =>
    intro t h
    match t with
    | .node nm cs f =>
      simp only [TreeNode.children] at h
      match rest with
      | [] =>
        rw [add_one]
        simp only [TreeNode.name, TreeNode.children, TreeNode.is_file, insertNoDemote,
          ChildMap.update]
        congr 1
        congr 1
        rcases hfind : cs.find a with _ | e
        · rfl
        · have hent := dirsOK_find cs h a e hfind
          by_cases hf : e.is_file = true
          · match e with
            | .node en ecs ef =>
              simp only [TreeNode.is_file] at hf
              subst hf
              rw [resolveFinal_some]
              simp
          · have hne : e.children.isEmpty = false := by
              rcases hent with ⟨h1, _⟩
              rw [Bool.eq_false_iff.mpr hf] at h1
              simp at h1
              simp [h1]
            rw [resolveFinal_true_dir_nonempty _ _ (Bool.eq_false_iff.mpr hf) hne]
      | a2 :: p' =>
        rw [add_cons]
        simp only [TreeNode.name, TreeNode.children, TreeNode.is_file, insertNoDemote,
          ChildMap.update]
        congr 1
        congr 1
        rcases hfind : cs.find a with _ | e
        · apply ih
          rw [forceDir_children]
          rfl
        · have hent := dirsOK_find cs h a e hfind
          apply ih
          rw [forceDir_children]
          exact hent.2

/-! ### Insertion never loses existing nodes or their children -/

theorem lookup_nil_eq (t : TreeNode) : lookupPath t [] = some t := rfl

theorem lookup_cons_eq (t : TreeNode) (k : String) (rest : List String) :
    lookupPath t (k :: rest)
      = match t.children.find k with
        | none => none
        | some c => lookupPath c rest := rfl

theorem lookup_children_only (pi1 : List String) (h : pi1 ≠ []) (v c : TreeNode)
    (hch : v.children = c.children) : lookupPath v pi1 = lookupPath c pi1 := by
  match pi1 with
  | [] => exact absurd rfl h
  | k :: rest =>
    rw [lookup_cons_eq, lookup_cons_eq, hch]

theorem lookup_add_mono : ∀ (pi1 : List String) (comps : List String) (fif : Bool)
    (t n : TreeNode), lookupPath t pi1 = some n →
    ∃ n', lookupPath (add_components t comps fif) pi1 = some n'
      ∧ (n.children.isEmpty = false → n'.children.isEmpty = false) := by
  intro pi1
  induction pi1 with
  | nil =>
    intro comps fif t n hl
    rw [lookup_nil_eq] at hl
    cases hl
    refine ⟨add_components t comps fif, lookup_nil_eq _, ?_⟩
    intro hne
    match comps with
    | [] => rw [add_nil]; exact hne
    | c :: rest => exact add_children_isEmpty_false t (c :: rest) fif (by simp)
  | cons k pi2 ih =>
    intro comps fif t n hl
    match t with
    | .node nm cs f =>
      rw [lookup_cons_eq] at hl
      simp only [TreeNode.children] at hl
      rcases hfind : cs.find k with _ | c
      · rw [hfind] at hl
        simp at hl
      · rw [hfind] at hl
        simp only at hl
        match comps with
        | [] =>
          rw [add_nil]
          exact ⟨n, by rw [lookup_cons_eq]; simp only [TreeNode.children]; rw [hfind]; exact hl,
            fun h => h⟩
        | [a] =>
          rw [add_one]
          simp only [TreeNode.name, TreeNode.children, TreeNode.is_file, ChildMap.update]
          by_cases hak : k = a
          · subst hak
            rw [hfind]
            rw [lookup_cons_eq]
            simp only [TreeNode.children]
            rw [find_set_self]
            simp only
            match pi2 with
            | [] =>
              rw [lookup_nil_eq] at hl
              cases hl
              refine ⟨resolveFinal k fif (some n), lookup_nil_eq _, ?_⟩
              show n.children.isEmpty = false
                → (resolveFinal k fif (some n)).children.isEmpty = false
              rw [resolveFinal_children]
              exact fun h => h
            | k2 :: pi3 =>
              rw [lookup_children_only (k2 :: pi3) (by simp) _ c (resolveFinal_children k fif c)]
              exact ⟨n, hl, fun h => h⟩
          · rw [lookup_cons_eq]
            simp only [TreeNode.children]
            rw [find_set_other _ _ _ _ (fun he => hak he), hfind]
            exact ⟨n, hl, fun h => h⟩
        | a :: a2 :: rest =>
          rw [add_cons]
          simp only [TreeNode.name, TreeNode.children, TreeNode.is_file, ChildMap.update]
          by_cases hak : k = a
          · subst hak
            rw [hfind]
            rw [lookup_cons_eq]
            simp only [TreeNode.children]
            rw [find_set_self]
            simp only [Option.getD]
            match pi2 with
            | [] =>
              rw [lookup_nil_eq] at hl ⊢
              cases hl
              refine ⟨_, rfl, fun _ => ?_⟩
              exact add_children_isEmpty_false (forceDir n) (a2 :: rest) fif (by simp)
            | k2 :: pi3 =>
              have hstep : lookupPath (forceDir c) (k2 :: pi3) = some n := by
                rw [lookup_children_only (k2 :: pi3) (by simp) _ c (forceDir_children c)]
                exact hl
              exact ih (a2 :: rest) fif (forceDir c) n hstep
          · rw [lookup_cons_eq]
            simp only [TreeNode.children]
            rw [find_set_other _ _ _ _ (fun he => hak he), hfind]
            exact ⟨n, hl, fun h => h⟩

/-! ### Lookup through the invariant -/

theorem lookup_kindOK : ∀ (pi1 : List String) (t n : TreeNode), kindOK t.children = true →
    pi1 ≠ [] → lookupPath t pi1 = some n → n.children.isEmpty = false → n.is_file = false := by
  intro pi1
  induction pi1 with
  | nil => intro t n _ habs; exact absurd rfl habs
  | cons k pi2 ih =>
    intro t n hok _ hl hne
    rw [lookup_cons_eq] at hl
    rcases hfind : t.children.find k with _ | c
    · rw [hfind] at hl
      simp at hl
    · rw [hfind] at hl
      simp only at hl
      have hent := kindOK_find t.children hok k c hfind
      match pi2 with
      | [] =>
        rw [lookup_nil_eq] at hl
        cases hl
        rcases hent with ⟨h1, _⟩
        rw [hne] at h1
        simpa using h1
      | k2 :: pi3 =>
        exact ih c n hent.2 (by simp) hl hne

/-! ### Folding batches of insertions -/

theorem buildOps_append (ops more : List (List String × Bool)) :
    buildOps (ops ++ more)
      = more.foldl (fun t op => add_components t op.1 op.2) (buildOps ops) := by
  simp [buildOps, List.foldl_append]

theorem kindOK_fold : ∀ (ops : List (List String × Bool)) (t : TreeNode),
    kindOK t.children = true →
    kindOK ((ops.foldl (fun t op => add_components t op.1 op.2) t)).children = true := by
  intro ops
  induction ops with
  | nil => intro t h; exact h
  | cons op rest ih =>
    intro t h
    exact ih _ (kindOK_add op.1 t op.2 h)

theorem kindOK_buildOps (ops : List (List String × Bool)) :
    kindOK (buildOps ops).children = true :=
  kindOK_fold ops TreeNode.new rfl

theorem lookup_fold_mono : ∀ (ops : List (List String × Bool)) (t : TreeNode)
    (pi1 : List String) (n : TreeNode), lookupPath t pi1 = some n →
    ∃ n', lookupPath (ops.foldl (fun t op => add_components t op.1 op.2) t) pi1 = some n'
      ∧ (n.children.isEmpty = false → n'.children.isEmpty = false) := by
  intro ops
  induction ops with
  | nil => intro t pi1 n hl; exact ⟨n, hl, fun h => h⟩
  | cons op rest ih =>
    intro t pi1 n hl
    rcases lookup_add_mono pi1 op.1 op.2 t n hl with ⟨n1, hl1, himp1⟩
    rcases ih _ pi1 n1 hl1 with ⟨n2, hl2, himp2⟩
    exact ⟨n2, hl2, fun h => himp2 (himp1 h)⟩

theorem dirsOK_fold : ∀ (paths : List String) (t : TreeNode),
    dirsOK t.children = true →
    dirsOK (paths.foldl add_path_to_tree t).children = true := by
  intro paths
  induction paths with
  | nil => intro t h; exact h
  | cons p rest ih =>
    intro t h
    exact ih _ (dirsOK_add (clean_path_components p) t h)

theorem dirsOK_buildTree (paths : List String) :
    dirsOK (buildTree paths).children = true :=
  dirsOK_fold paths TreeNode.new rfl

/-! ### Order facts about the sibling comparator -/

theorem childLt_eval (a b : TreeNode) :
    childLt a b
      = match a.is_file, b.is_file with
        | false, true => true
        | true, false => false
        | _, _ => strLt a.name b.name := rfl

theorem strLt_neg_trans {a b c : String} (h1 : strLt a b = false) (h2 : strLt b c = false) :
    strLt a c = false := by
  by_cases h : strLt a c = true
  · rcases strLt_cases a b with hc | hc | hc
    · rw [hc] at h1
      simp at h1
    · subst hc
      rw [h] at h2
      simp at h2
    · rw [strLt_trans hc h] at h2
      simp at h2
  · exact Bool.eq_false_iff.mpr h

theorem childLt_asymm : ∀ {a b : TreeNode}, childLt a b = true → childLt b a = false := by
  intro a b h
  match a, b with
  | .node na ca fa, .node nb cb fb =>
    rw [childLt_eval] at h ⊢
    simp only [TreeNode.is_file, TreeNode.name] at h ⊢
    cases fa <;> cases fb
    · exact strLt_asymm h
    · rfl
    · simp at h
    · exact strLt_asymm h

theorem childLt_neg_trans : ∀ {y b x : TreeNode}, childLt y b = false →
    childLt b x = false → childLt y x = false := by
  intro y b x h1 h2
  match y, b, x with
  | .node ny cy fy, .node nb cb fb, .node nx cx fx =>
    rw [childLt_eval] at h1 h2 ⊢
    simp only [TreeNode.is_file, TreeNode.name] at h1 h2 ⊢
    cases fy <;> cases fb <;> cases fx
    · exact strLt_neg_trans h1 h2
    · simp at h2
    · simp at h1
    · simp at h1
    · rfl
    · simp at h2
    · rfl
    · exact strLt_neg_trans h1 h2

theorem mem_insertChild : ∀ (x y : TreeNode) (l : List TreeNode),
    y ∈ insertChild x l → y = x ∨ y ∈ l := by
  intro x y l
  induction l with
  | nil =>
    intro h
    simp [insertChild] at h
    exact Or.inl h
  | cons b rest ih =>
    intro h
    rw [insertChild] at h
    by_cases hc : childLt b x = true
    · rw [if_pos hc] at h
      rcases List.mem_cons.mp h with h | h
      · exact Or.inr (by simp [h])
      · rcases ih h with h | h
        · exact Or.inl h
        · exact Or.inr (by simp [h])
    · rw [if_neg hc] at h
      rcases List.mem_cons.mp h with h | h
      · exact Or.inl h
      · exact Or.inr h

theorem sorted_insertChild : ∀ (x : TreeNode) (l : List TreeNode),
    l.Pairwise (fun a b => childLt b a = false) →
    (insertChild x l).Pairwise (fun a b => childLt b a = false) := by
  intro x l
  induction l with
  | nil =>
    intro _
    simp [insertChild]
  | cons b rest ih =>
    intro hp
    rw [List.pairwise_cons] at hp
    rw [insertChild]
    by_cases hc : childLt b x = true
    · rw [if_pos hc]
      rw [List.pairwise_cons]
      constructor
      · intro y hy
        rcases mem_insertChild x y rest hy with h | h
        · rw [h]
          exact childLt_asymm hc
        · exact hp.1 y h
      · exact ih hp.2
    · rw [if_neg hc]
      rw [List.pairwise_cons]
      constructor
      · intro y hy
        rcases List.mem_cons.mp hy with h | h
        · rw [h]
          exact Bool.eq_false_iff.mpr hc
        · exact childLt_neg_trans (hp.1 y h) (Bool.eq_false_iff.mpr hc)
      · exact List.Pairwise.cons hp.1 hp.2
  
theorem sortChildren_sorted : ∀ l : List TreeNode,
    (sortChildren l).Pairwise (fun a b => childLt b a = false) := by
  intro l
  induction l with
  | nil => simp [sortChildren]
  | cons a rest ih => exact sorted_insertChild a (sortChildren rest) ih

/-! ### Unfolding equations for the renderer -/

theorem render_tree_eq (node : TreeNode) (pre : String) (is_root : Bool) :
    render_tree node pre is_root
      = render_children (sortChildren node.children.values) pre is_root := by
  rw [render_tree]

theorem render_children_nil (pre : String) (is_root : Bool) :
    render_children [] pre is_root = "" := by
  rw [render_children]

theorem render_children_one (c : TreeNode) (pre : String) (is_root : Bool) :
    render_children [c] pre is_root = render_child c pre true is_root := by
  rw [render_children]

theorem render_children_cons (c c2 : TreeNode) (rest : List TreeNode) (pre : String)
    (is_root : Bool) :
    render_children (c :: c2 :: rest) pre is_root
      = render_child c pre false is_root ++ render_children (c2 :: rest) pre is_root := by
  rw [render_children]

theorem render_child_eq (child : TreeNode) (cur_pre : String) (is_last : Bool) (is_root : Bool) :
    render_child child cur_pre is_last is_root
      = (if is_root then "" else cur_pre)
        ++ (if is_last then "└── " else "├── ")
        ++ child.name
        ++ (if child.is_file then "" else "/")
        ++ "\n"
        ++ render_tree child
            ((if is_root then "" else cur_pre) ++ (if is_last then "    " else "│   ")) false := by
  rw [render_child]

/-! ### Top-level shape of `generate_tree` -/

theorem generate_tree_nil : generate_tree [] = "" := rfl

theorem generate_tree_of_ne_nil (paths : List String) (h : paths ≠ []) :
    generate_tree paths
      = "Directory structure:\n" ++ render_tree (buildTree paths) "" true ++ "\n" := by
  match paths with
  | [] => exact absurd rfl h
  | p :: ps => rw [generate_tree]; rfl

theorem generate_tree_ne_empty (paths : List String) (h : paths ≠ []) :
    generate_tree paths ≠ "" := by
  rw [generate_tree_of_ne_nil paths h]
  intro heq
  have hlen := congrArg String.length heq
  rw [String.length_append, String.length_append] at hlen
  have h1 : ("Directory structure:\n" : String).length = 21 := rfl
  have h2 : ("\n" : String).length = 1 := rfl
  have h3 : ("" : String).length = 0 := rfl
  rw [h1, h2, h3] at hlen
  omega

/-! ### Characterization of the normalizer -/

theorem pathComponents_eq (s : String) :
    pathComponents s
      = (if s.data.head? = some '/' then [PathComponent.rootDir] else [])
        ++ (if (¬ s.data.head? = some '/')
              ∧ ((splitOnChar '/' s.data).map (fun g => String.mk g)).head? = some "."
            then [PathComponent.curDir] else [])
        ++ ((splitOnChar '/' s.data).map (fun g => String.mk g)).filterMap componentOfChunk := by
  rw [pathComponents]

theorem clean_chunkwise (s : String) :
    clean_path_components s
      = ((splitOnChar '/' s.data).map (fun g => String.mk g)).filterMap (fun c =>
          if c = "" then none
          else if c = "." then none
          else if c = ".." then some ".."
          else some c) := by
  rw [clean_path_components, pathComponents_eq]
  rw [List.filterMap_append, List.filterMap_append]
  have hA : (if s.data.head? = some '/' then [PathComponent.rootDir] else []).filterMap
      (fun c =>
        match c with
        | .rootDir => none
        | .curDir => none
        | .parentDir => some ".."
        | .normal os_str => some os_str) = [] := by
    split_ifs <;> rfl
  have hB : (if (¬ s.data.head? = some '/')
        ∧ ((splitOnChar '/' s.data).map (fun g => String.mk g)).head? = some "."
      then [PathComponent.curDir] else []).filterMap
      (fun c =>
        match c with
        | .rootDir => none
        | .curDir => none
        | .parentDir => some ".."
        | .normal os_str => some os_str) = [] := by
    split_ifs <;> rfl
  rw [hA, hB]
  simp only [List.nil_append]
  rw [List.filterMap_filterMap]
  have hfun : ∀ c : String,
      (componentOfChunk c).bind (fun c =>
        match c with
        | PathComponent.rootDir => none
        | PathComponent.curDir => none
        | PathComponent.parentDir => some ".."
        | PathComponent.normal os_str => some os_str)
      = (if c = "" then none
         else if c = "." then none
         else if c = ".." then some ".."
         else some c) := by
    intro c
    rw [componentOfChunk]
    by_cases h0 : c = ""
    · simp [h0]
    · by_cases h1 : c = "."
      · simp [h0, h1]
      · by_cases h2 : c = ".."
        · simp [h0, h1, h2]
        · simp [h0, h1, h2]
  exact congrArg (fun f => List.filterMap f _) (funext hfun)

theorem clean_empty_no_insert (t : TreeNode) (p : String) (fif : Bool)
    (h : clean_path_components p = []) : add_path_to_tree_with_type t p fif = t := by
  rw [add_path_to_tree_with_type, h, add_nil]

/-! ### Permutation invariance of the builder -/

theorem buildTree_perm (l1 l2 : List String) (h : l1.Perm l2) : buildTree l1 = buildTree l2 := by
  simp only [buildTree]
  haveI : RightCommutative add_path_to_tree := ⟨fun t p q => add_path_right_comm t p q⟩
  exact h.foldl_eq TreeNode.new

theorem generate_tree_perm (l1 l2 : List String) (h : l1.Perm l2) :
    generate_tree l1 = generate_tree l2 := by
  match hl : l1 with
  | [] =>
    have h2 : l2 = [] := by
      have := h.length_eq
      simp at this
      exact List.length_eq_zero.mp this.symm
    rw [h2]
  | p :: ps =>
    have h2 : l2 ≠ [] := by
      intro habs
      rw [habs] at h
      have := h.length_eq
      simp at this
    rw [generate_tree_of_ne_nil _ (by simp), generate_tree_of_ne_nil _ h2,
      buildTree_perm _ _ h]

/-! ### Folding with the file-only insertion -/

theorem fold_eq_fileOnly : ∀ (paths : List String) (t : TreeNode),
    paths.foldl add_path_to_tree t
      = paths.foldl (fun t p => insertFileOnly t (clean_path_components p)) t := by
  intro paths
  induction paths with
  | nil => intro t; rfl
  | cons p rest ih =>
    intro t
    simp only [List.foldl_cons]
    rw [← add_true_eq_fileOnly]
    exact ih _

/-! ### From the comparator to the spec's canonical order -/

theorem childLt_false_canonicalLE : ∀ {a b : TreeNode}, childLt b a = false → canonicalLE a b := by
  intro a b h
  rw [childLt_eval] at h
  match a, b with
  | .node na ca fa, .node nb cb fb =>
    simp only [TreeNode.is_file, TreeNode.name] at h ⊢
    rw [canonicalLE]
    simp only [TreeNode.is_file, TreeNode.name]
    cases fa <;> cases fb
    · exact Or.inr ⟨rfl, h⟩
    · exact Or.inl ⟨rfl, rfl⟩
    · simp at h
    · exact Or.inr ⟨rfl, h⟩

theorem sortChildren_canonical (l : List TreeNode) : (sortChildren l).Pairwise canonicalLE :=
  (sortChildren_sorted l).imp (fun h => childLt_false_canonicalLE h)

/-! ### Claim theorems -/

/-- C1: insertion of one path follows the spec's algorithm — every non-final
component is looked up or created and unconditionally forced to `Directory`
before descending, and the final component is resolved against any
pre-existing node by the conflict table (`resolveKindSpec`): absent nodes
are created with the requested kind, `File` vs `File` and `Directory` vs
`Directory` are no-ops, `File` vs requested `Directory` promotes, a
childless `Directory` vs requested `File` demotes, and a `Directory` with
children absorbs a requested `File`. -/
theorem c1_insertion_follows_spec_table :
    (∀ (comps : List String) (t : TreeNode) (fif : Bool),
      add_components t comps fif = insertSpec t comps fif)
    ∧ (∀ (root : TreeNode) (path : String) (fif : Bool),
        add_path_to_tree_with_type root path fif
          = insertSpec root (clean_path_components path) fif) :=
  ⟨add_eq_insertSpec,
    fun root path fif => add_eq_insertSpec (clean_path_components path) root fif⟩

/-- C2: processing the same multiset of paths in any order yields an
identical tree and an identical rendered output string: `generate_tree`
applied to any two permutations of the same path list returns equal
strings. -/
theorem c2_order_independence (l1 l2 : List String) (h : l1.Perm l2) :
    buildTree l1 = buildTree l2 ∧ generate_tree l1 = generate_tree l2 :=
  ⟨buildTree_perm l1 l2 h, generate_tree_perm l1 l2 h⟩

/-- Witness for C2 at the spec's own example batch. -/
theorem c2_order_independence_witness :
    buildTree ["src/lib.rs", "src/main.rs", "src"] = buildTree ["src", "src/lib.rs", "src/main.rs"]
    ∧ generate_tree ["src/lib.rs", "src/main.rs", "src"]
        = generate_tree ["src", "src/lib.rs", "src/main.rs"] :=
  c2_order_independence _ _ (by decide)

/-- C7: in every tree state reachable by any sequence of insertions, every
node with at least one child is a `Directory` (`kindOK`), and once a node
has children it keeps them and remains a `Directory` under all further
insertions. -/
theorem c7_directoriness_is_permanent :
    (∀ ops : List (List String × Bool), kindOK (buildOps ops).children = true)
    ∧ (∀ (ops more : List (List String × Bool)) (pi1 : List String) (n : TreeNode),
        lookupPath (buildOps ops) pi1 = some n → pi1 ≠ [] → n.children.isEmpty = false →
        ∃ n', lookupPath (buildOps (ops ++ more)) pi1 = some n'
          ∧ n'.children.isEmpty = false ∧ n'.is_file = false) := by
  constructor
  · exact kindOK_buildOps
  · intro ops more pi1 n hl hpi hne
    rw [buildOps_append]
    rcases lookup_fold_mono more (buildOps ops) pi1 n hl with ⟨n', hl', himp⟩
    have hne' := himp hne
    have hok : kindOK
        ((more.foldl (fun t op => add_components t op.1 op.2) (buildOps ops))).children = true :=
      kindOK_fold more (buildOps ops) (kindOK_buildOps ops)
    exact ⟨n', hl', hne', lookup_kindOK pi1 _ n' hok hpi hl' hne'⟩

/-- Witness for C7: the node `"a"` gains a child from `"a/b"`, and a later
insertion of the bare path `"a"` leaves it a directory with its child. -/
theorem c7_directoriness_is_permanent_witness :
    ∃ n', lookupPath (buildOps ([(["a", "b"], true)] ++ [(["a"], true)])) ["a"] = some n'
      ∧ n'.children.isEmpty = false ∧ n'.is_file = false :=
  c7_directoriness_is_permanent.2 [(["a", "b"], true)] [(["a"], true)] ["a"]
    (.node "a" (.cons "b" (.node "b" .nil true) .nil) false) rfl (by decide) rfl

/-- C9: in every tree built by the public entry point, every non-root
`Directory` node has at least one child (`dirsOK`), and on such trees the
demoting row of the conflict table is dead code: insertion with terminal
kind `File` coincides with the insertion that never demotes an existing
node. -/
theorem c9_nonroot_directories_have_children :
    (∀ paths : List String, dirsOK (buildTree paths).children = true)
    ∧ (∀ (comps : List String) (t : TreeNode), dirsOK t.children = true →
        add_components t comps true = insertNoDemote t comps) :=
  ⟨dirsOK_buildTree, fun comps t h => add_eq_noDemote comps t h⟩

/-- Witness for C9: on the tree built from `"a/b"`, re-inserting `"a"` with
terminal kind `File` is the same as the never-demoting insertion. -/
theorem c9_nonroot_directories_have_children_witness :
    add_components (buildTree ["a/b"]) ["a"] true = insertNoDemote (buildTree ["a/b"]) ["a"] :=
  c9_nonroot_directories_have_children.2 ["a"] (buildTree ["a/b"]) rfl

/-- C10: the public interface always requests terminal kind `File`:
`add_path_to_tree` is `add_path_to_tree_with_type` at `final_is_file =
true`, and the tree `generate_tree` builds equals the one obtained by
inserting every path with an insertion that only has the `File`-request
rows of the conflict table. -/
theorem c10_terminal_kind_always_file :
    (∀ (root : TreeNode) (path : String),
      add_path_to_tree root path = add_path_to_tree_with_type root path true)
    ∧ (∀ (comps : List String) (t : TreeNode),
        add_components t comps true = insertFileOnly t comps)
    ∧ (∀ paths : List String,
        buildTree paths
          = paths.foldl (fun t p => insertFileOnly t (clean_path_components p)) TreeNode.new) :=
  ⟨fun _ _ => rfl, fun comps t => add_true_eq_fileOnly comps t,
    fun paths => fold_eq_fileOnly paths TreeNode.new⟩

/-- C4: each non-root node yields exactly one line — ancestor prefix, then
`"├── "` for a non-last sibling or `"└── "` for the last one, then the
name, then `"/"` iff the node is a directory, then a newline — followed by
its own subtree rendered with the prefix extended by exactly four
characters (`"    "` if this node was last, `"│   "` otherwise); root
children start from the empty prefix, and the whole output is the header
line plus the tree plus a trailing blank line. -/
theorem c4_rendering_shape :
    (∀ (child : TreeNode) (cur_pre : String) (is_last is_root : Bool),
      render_child child cur_pre is_last is_root
        = (if is_root then "" else cur_pre)
          ++ (if is_last then "└── " else "├── ")
          ++ child.name
          ++ (if child.is_file then "" else "/")
          ++ "\n"
          ++ render_tree child
              ((if is_root then "" else cur_pre) ++ (if is_last then "    " else "│   ")) false)
    ∧ (∀ (c : TreeNode) (pre : String) (is_root : Bool),
        render_children [c] pre is_root = render_child c pre true is_root)
    ∧ (∀ (c c2 : TreeNode) (rest : List TreeNode) (pre : String) (is_root : Bool),
        render_children (c :: c2 :: rest) pre is_root
          = render_child c pre false is_root ++ render_children (c2 :: rest) pre is_root)
    ∧ (∀ paths : List String, paths ≠ [] →
        generate_tree paths
          = "Directory structure:\n" ++ render_tree (buildTree paths) "" true ++ "\n") :=
  ⟨render_child_eq, render_children_one, render_children_cons, generate_tree_of_ne_nil⟩

/-- Witness for C4 at the one-path batch. -/
theorem c4_rendering_shape_witness :
    generate_tree ["a"]
      = "Directory structure:\n" ++ render_tree (buildTree ["a"]) "" true ++ "\n" :=
  c4_rendering_shape.2.2.2 ["a"] (by decide)

/-- C5 counterexample: the batch `["."]` is nonempty and builds a tree with
no children, yet `generate_tree` does not return the empty string — it
returns the header plus the blank line — refuting "empty output exactly
when the built tree has no children". -/
theorem c5_counterexample :
    (buildTree ["."]).children.isEmpty = true ∧ generate_tree ["."] ≠ "" :=
  ⟨rfl, generate_tree_ne_empty ["."] (by decide)⟩

/-- C5 amended: `generate_tree` returns the empty string exactly when the
input path list is empty (not when the built tree is childless), and the
header is emitted exactly when the list is nonempty — even when every path
normalizes to zero components and the tree below the header is empty. -/
theorem c5_empty_output_iff_empty_batch (paths : List String) :
    (generate_tree paths = "" ↔ paths = [])
    ∧ (paths ≠ [] →
        generate_tree paths
          = "Directory structure:\n" ++ render_tree (buildTree paths) "" true ++ "\n") := by
  constructor
  · constructor
    · intro h
      by_contra hne
      exact generate_tree_ne_empty paths hne h
    · intro h
      rw [h]
      rfl
  · exact generate_tree_of_ne_nil paths

/-- Witness for C5 at the empty batch and at the childless-tree batch. -/
theorem c5_empty_output_iff_empty_batch_witness :
    (generate_tree [] = "" ↔ ([] : List String) = [])
    ∧ generate_tree ["."]
        = "Directory structure:\n" ++ render_tree (buildTree ["."]) "" true ++ "\n" :=
  ⟨(c5_empty_output_iff_empty_batch []).1, (c5_empty_output_iff_empty_batch ["."]).2 (by decide)⟩

/-- C6: the normalizer maps a path to exactly its chunks between
separators with empty chunks (volume/root markers, repeated separators)
and `"."` chunks dropped, `".."` kept literally as the component `".."`
and all other chunks copied verbatim; the spec's example normalizes as
stated; and a path normalizing to zero components causes no insertion. -/
theorem c6_normalizer_drops_dots_keeps_parents :
    (∀ s : String,
      clean_path_components s
        = ((splitOnChar '/' s.data).map (fun g => String.mk g)).filterMap (fun c =>
            if c = "" then none
            else if c = "." then none
            else if c = ".." then some ".."
            else some c))
    ∧ clean_path_components "./src/../src/lib.rs" = ["src", "..", "src", "lib.rs"]
    ∧ (∀ (t : TreeNode) (p : String) (fif : Bool), clean_path_components p = [] →
        add_path_to_tree_with_type t p fif = t) :=
  ⟨clean_chunkwise, by decide, clean_empty_no_insert⟩

/-- Witness for C6: the pure-root path `"/"` normalizes to nothing and
inserts nothing. -/
theorem c6_normalizer_witness :
    add_path_to_tree_with_type TreeNode.new "/" true = TreeNode.new :=
  c6_normalizer_drops_dots_keeps_parents.2.2 TreeNode.new "/" true (by decide)

set_option maxRecDepth 8192

/-- C3: the renderer orders the siblings of every node canonically —
directories before files, and names in plain case-sensitive lexicographic
order within the same kind — and on the batch
`["zebra.rs", "alpha/file.rs", "beta.rs", "gamma/file.rs"]` the rendered
positions satisfy `alpha` < `gamma` < `beta.rs` < `zebra.rs`. -/
theorem c3_sibling_ordering :
    (∀ cs : ChildMap, (sortChildren cs.values).Pairwise canonicalLE)
    ∧ generate_tree ["zebra.rs", "alpha/file.rs", "beta.rs", "gamma/file.rs"]
        = "Directory structure:\n├── alpha/\n│   └── file.rs\n├── gamma/\n│   └── file.rs\n├── beta.rs\n└── zebra.rs\n\n"
    ∧ (subPos "alpha" (generate_tree ["zebra.rs", "alpha/file.rs", "beta.rs", "gamma/file.rs"]) ≠ none
       ∧ subPos "zebra.rs" (generate_tree ["zebra.rs", "alpha/file.rs", "beta.rs", "gamma/file.rs"]) ≠ none
       ∧ (subPos "alpha" (generate_tree ["zebra.rs", "alpha/file.rs", "beta.rs", "gamma/file.rs"])).getD 999
           < (subPos "gamma" (generate_tree ["zebra.rs", "alpha/file.rs", "beta.rs", "gamma/file.rs"])).getD 999
       ∧ (subPos "gamma" (generate_tree ["zebra.rs", "alpha/file.rs", "beta.rs", "gamma/file.rs"])).getD 999
           < (subPos "beta.rs" (generate_tree ["zebra.rs", "alpha/file.rs", "beta.rs", "gamma/file.rs"])).getD 999
       ∧ (subPos "beta.rs" (generate_tree ["zebra.rs", "alpha/file.rs", "beta.rs", "gamma/file.rs"])).getD 999
           < (subPos "zebra.rs" (generate_tree ["zebra.rs", "alpha/file.rs", "beta.rs", "gamma/file.rs"])).getD 999) := by
  have hb : buildTree ["zebra.rs", "alpha/file.rs", "beta.rs", "gamma/file.rs"]
      = .node ""
          (.cons "alpha" (.node "alpha" (.cons "file.rs" (.node "file.rs" .nil true) .nil) false)
            (.cons "beta.rs" (.node "beta.rs" .nil true)
              (.cons "gamma" (.node "gamma" (.cons "file.rs" (.node "file.rs" .nil true) .nil) false)
                (.cons "zebra.rs" (.node "zebra.rs" .nil true) .nil)))) false := by rfl
  have hsort : sortChildren
      ((TreeNode.node ""
          (.cons "alpha" (.node "alpha" (.cons "file.rs" (.node "file.rs" .nil true) .nil) false)
            (.cons "beta.rs" (.node "beta.rs" .nil true)
              (.cons "gamma" (.node "gamma" (.cons "file.rs" (.node "file.rs" .nil true) .nil) false)
                (.cons "zebra.rs" (.node "zebra.rs" .nil true) .nil)))) false).children.values)
      = [.node "alpha" (.cons "file.rs" (.node "file.rs" .nil true) .nil) false,
         .node "gamma" (.cons "file.rs" (.node "file.rs" .nil true) .nil) false,
         .node "beta.rs" .nil true,
         .node "zebra.rs" .nil true] := by rfl
  have hout : generate_tree ["zebra.rs", "alpha/file.rs", "beta.rs", "gamma/file.rs"]
      = "Directory structure:\n├── alpha/\n│   └── file.rs\n├── gamma/\n│   └── file.rs\n├── beta.rs\n└── zebra.rs\n\n" := by
    rw [generate_tree_of_ne_nil _ (by decide), hb, render_tree_eq, hsort]
    simp only [render_tree_eq, render_children_nil, render_children_one, render_children_cons,
      render_child_eq, sortChildren, insertChild, childLt, strLt, charsLt,
      TreeNode.children, ChildMap.values, TreeNode.name, TreeNode.is_file]
    rfl
  refine ⟨fun cs => sortChildren_canonical cs.values, hout, ?_⟩
  rw [hout]
  refine ⟨by decide, by decide, by decide, by decide, by decide⟩

/-- C8: re-inserting the same full path is idempotent — the tree is
unchanged and no duplicate sibling appears — and a batch containing
`"src/lib.rs"` twice renders exactly one line containing `"lib.rs"`. -/
theorem c8_duplicate_insertion_idempotent :
    (∀ (t : TreeNode) (p : String),
      add_path_to_tree (add_path_to_tree t p) p = add_path_to_tree t p)
    ∧ (∀ (comps : List String) (t : TreeNode),
        add_components (add_components t comps true) comps true = add_components t comps true)
    ∧ linesContaining "lib.rs" (generate_tree ["src/lib.rs", "src/lib.rs"]) = 1 := by
  refine ⟨fun t p => add_path_idem t p, fun comps t => add_components_idem comps t, ?_⟩
  have hb : buildTree ["src/lib.rs", "src/lib.rs"]
      = .node ""
          (.cons "src" (.node "src" (.cons "lib.rs" (.node "lib.rs" .nil true) .nil) false) .nil)
          false := by rfl
  have hout : generate_tree ["src/lib.rs", "src/lib.rs"]
      = "Directory structure:\n└── src/\n    └── lib.rs\n\n" := by
    rw [generate_tree_of_ne_nil _ (by decide), hb]
    simp only [render_tree_eq, render_children_nil, render_children_one, render_children_cons,
      render_child_eq, sortChildren, insertChild, childLt, strLt, charsLt,
      TreeNode.children, ChildMap.values, TreeNode.name, TreeNode.is_file]
    rfl
  rw [hout]
  decide
